import Mathlib

/-!
Verification of the vaultpass-go versioned entry store and delta-sync protocol.

This file gives a shallow embedding of the core of the repository:
the `vault_entries` table (migrations/002_create_vault_entries.sql), the
repository layer (internal/repository/vault.go: the `upsertQuery`
INSERT ... ON DUPLICATE KEY UPDATE, `GetByEntryID`, `GetChangedSince`,
`SoftDelete`) and the service layer (internal/service/vault.go:
`CreateEntry`, `Sync`, `entriesToResponse`), together with theorems about
the conflict-resolution, sync and tombstone behaviour.

Conventions of the embedding:
* the table is a `List VaultEntry`; the unique composite index on
  (user_id, entry_id) is expressed by the `KeyUnique` predicate;
* timestamps are `Nat` (MySQL TIMESTAMP values; `time.Time{}`, the zero
  value, is `0`; every timestamp the database actually assigns via
  CURRENT_TIMESTAMP is positive);
* byte slices are `List Nat` (each element a byte value);
* Go `int` fields (`version`, `user_id`) are `Int`;
* `base64.StdEncoding.DecodeString` / `EncodeToString` from the Go
  standard library are modelled by `decodeBase64` / `encodeBase64` below
  (standard alphabet, mandatory padding, `\r`/`\n` ignored on decode);
* each database-mutating operation takes a `now : Nat` parameter, the
  value CURRENT_TIMESTAMP has when the statement runs;
* the SQL `ON DUPLICATE KEY UPDATE` assignment list is evaluated with
  MySQL's left-to-right assignment semantics: a later assignment's
  right-hand side sees the already-updated values of earlier columns.
  The query assigns `encrypted_data`, then `version`, then `deleted`,
  then `updated_at`, so the guards of `deleted` and `updated_at` compare
  `VALUES(version)` against the already-updated `version` and never
  fire: the duplicate-key path replaces only `encrypted_data` and
  `version`.
-/

namespace VaultPass

/-- A row of the `vault_entries` table (internal/model/vault.go `VaultEntry`,
migrations/002_create_vault_entries.sql). The surrogate `id` column is not
modelled; rows are identified by the unique key (userID, entryID). -/
structure VaultEntry where
  userID : Int
  entryID : String
  encryptedData : List Nat
  version : Int
  createdAt : Nat
  updatedAt : Nat
  deleted : Bool
deriving DecidableEq

/-- The state of the `vault_entries` table. -/
abbrev Store := List VaultEntry

/-- Match on the unique composite index (user_id, entry_id). -/
def matchKey (uid : Int) (eid : String) (e : VaultEntry) : Bool :=
  e.userID == uid && e.entryID == eid

/-- The unique index `idx_user_entry (user_id, entry_id)`: no two rows of the
table share a key. -/
def KeyUnique (s : Store) : Prop :=
  s.Pairwise fun a b => ¬(a.userID = b.userID ∧ a.entryID = b.entryID)

instance (s : Store) : Decidable (KeyUnique s) := by
  unfold KeyUnique; infer_instance

/-- The errors surfaced by the modelled operations
(repository.ErrEntryNotFound, service validation errors, commit failure). -/
inductive VaultError where
  | entryNotFound
  | commitFailed
  | entryIDRequired
  | encryptedDataRequired
  | decodeFailed
deriving DecidableEq

/-- Model of `upsertQuery` (internal/repository/vault.go lines 25-32):
`INSERT INTO vault_entries ... ON DUPLICATE KEY UPDATE`, with MySQL's
left-to-right evaluation of the assignment list. The assignments run in
the order `encrypted_data`, `version`, `deleted`, `updated_at`, each
guarded by `IF(VALUES(version) > version, ...)`. The first two guards see
the original stored `version`, so `encrypted_data` and `version` are
replaced exactly when the incoming version is strictly greater. By the
time `deleted` and `updated_at` are evaluated, `version` already equals
`VALUES(version)` on an accepted write, so their guards are false — and
they are false on a stale write too: the duplicate-key path never changes
`deleted`, and `updated_at` (explicitly assigned to itself, which also
suppresses the column's ON UPDATE CURRENT_TIMESTAMP auto-update) keeps
its old value. If no row with the key exists, the insert branch runs: the
new row gets the incoming fields with
`created_at = updated_at = CURRENT_TIMESTAMP`. -/
def Upsert (now : Nat) (uid : Int) (eid : String) (data : List Nat)
    (ver : Int) (del : Bool) (s : Store) : Store :=
  if s.any (matchKey uid eid) then
    s.map fun e =>
      if matchKey uid eid e && decide (e.version < ver) then
        { e with encryptedData := data, version := ver }
      else e
  else
    s ++ [⟨uid, eid, data, ver, now, now, del⟩]

/-- Model of `GetByEntryID` (internal/repository/vault.go): point lookup on the
unique key; `none` corresponds to `ErrEntryNotFound`. -/
def getEntry (uid : Int) (eid : String) (s : Store) : Option VaultEntry :=
  s.find? (matchKey uid eid)

/-- The `ORDER BY updated_at ASC` ordering. -/
def updAtLE (a b : VaultEntry) : Prop :=
  a.updatedAt ≤ b.updatedAt

instance : DecidableRel updAtLE := fun a b => by
  unfold updAtLE; infer_instance

instance : IsTotal VaultEntry updAtLE :=
  ⟨fun a b => Nat.le_total a.updatedAt b.updatedAt⟩

instance : IsTrans VaultEntry updAtLE :=
  ⟨fun _ _ _ hab hbc => Nat.le_trans hab hbc⟩

/-- Model of `GetChangedSince` (internal/repository/vault.go lines 112-135):
`SELECT ... WHERE user_id = ? AND updated_at > ? ORDER BY updated_at ASC`,
deleted rows included. The (stable) sort models the `ORDER BY` clause. -/
def GetChangedSince (uid : Int) (since : Nat) (s : Store) : List VaultEntry :=
  List.insertionSort updAtLE
    (s.filter fun e => e.userID == uid && decide (since < e.updatedAt))

/-- Model of `SoftDelete` (internal/repository/vault.go lines 138-157):
`UPDATE vault_entries SET deleted = TRUE, version = version + 1 WHERE
user_id = ? AND entry_id = ?`; since `version` always changes on a matched
row, `RowsAffected = 0` exactly when no row matches, in which case
`ErrEntryNotFound` is returned and the table is untouched. The column
`updated_at` carries `ON UPDATE CURRENT_TIMESTAMP`, so a matched row's
`updated_at` becomes the statement time. -/
def SoftDelete (now : Nat) (uid : Int) (eid : String) (s : Store) :
    Except VaultError Unit × Store :=
  if s.any (matchKey uid eid) then
    (Except.ok (), s.map fun e =>
      if matchKey uid eid e then
        { e with deleted := true, version := e.version + 1, updatedAt := now }
      else e)
  else
    (Except.error VaultError.entryNotFound, s)

/-- Value of a character in the standard base64 alphabet
(`A`-`Z`, `a`-`z`, `0`-`9`, `+`, `/`), as used by Go's
`base64.StdEncoding`. -/
def b64Index (c : Char) : Option Nat :=
  if 'A' ≤ c ∧ c ≤ 'Z' then some (c.toNat - 65)
  else if 'a' ≤ c ∧ c ≤ 'z' then some (c.toNat - 97 + 26)
  else if '0' ≤ c ∧ c ≤ '9' then some (c.toNat - 48 + 52)
  else if c = '+' then some 62
  else if c = '/' then some 63
  else none

/-- Decode a list of base64 characters, four at a time; `=` padding is
allowed only in the final quantum, in the last one or two positions. A
length that is not a multiple of four is rejected. -/
def decodeB64Chunks : List Char → Option (List Nat)
  | [] => some []
  | c1 :: c2 :: c3 :: c4 :: rest =>
    match b64Index c1, b64Index c2 with
    | some a, some b =>
      if c3 = '=' then
        if c4 = '=' ∧ rest = [] then some [a * 4 + b / 16] else none
      else
        match b64Index c3 with
        | some c =>
          if c4 = '=' then
            if rest = [] then some [a * 4 + b / 16, (b % 16) * 16 + c / 4]
            else none
          else
            match b64Index c4 with
            | some d =>
              match decodeB64Chunks rest with
              | some tail =>
                some ((a * 4 + b / 16) :: ((b % 16) * 16 + c / 4) ::
                      ((c % 4) * 64 + d) :: tail)
              | none => none
            | none => none
        | none => none
    | _, _ => none
  | _ => none

/-- Model of Go `base64.StdEncoding.DecodeString`: carriage returns and
newlines are ignored, everything else must be standard-alphabet quanta
with correct `=` padding; `none` is a decode error. -/
def decodeBase64 (s : String) : Option (List Nat) :=
  decodeB64Chunks (s.data.filter fun c => ¬(c = '\r' ∨ c = '\n'))

/-- The standard base64 alphabet, indexed by 6-bit value. -/
def b64Char (n : Nat) : Char :=
  "ABCDEFGHIJKLMNOPQRSTUVWXYZabcdefghijklmnopqrstuvwxyz0123456789+/".data.getD n 'A'

/-- Encode bytes three at a time, padding the final quantum with `=`. -/
def encodeB64Chunks : List Nat → List Char
  | [] => []
  | [b1] => [b64Char (b1 / 4), b64Char (b1 % 4 * 16), '=', '=']
  | [b1, b2] =>
    [b64Char (b1 / 4), b64Char (b1 % 4 * 16 + b2 / 16),
     b64Char (b2 % 16 * 4), '=']
  | b1 :: b2 :: b3 :: rest =>
    b64Char (b1 / 4) :: b64Char (b1 % 4 * 16 + b2 / 16) ::
    b64Char (b2 % 16 * 4 + b3 / 64) :: b64Char (b3 % 64) ::
    encodeB64Chunks rest

/-- Model of Go `base64.StdEncoding.EncodeToString`. -/
def encodeBase64 (bs : List Nat) : String :=
  String.mk (encodeB64Chunks bs)

/-- Model of `model.VaultEntryRequest`: one incoming record of a sync upload (or a
create/update request body); `encryptedData` is still base64 text. -/
structure VaultEntryRequest where
  entryID : String
  encryptedData : String
  version : Int
  deleted : Bool
deriving DecidableEq

/-- Model of `model.VaultEntryResponse`: one outbound record, payload re-encoded
to base64 text. -/
structure VaultEntryResponse where
  entryID : String
  encryptedData : String
  version : Int
  updatedAt : Nat
  deleted : Bool
deriving DecidableEq

/-- Model of `model.SyncRequest`: optional cursor (`last_synced_at`, `none` meaning
first/full sync) plus the incoming records. -/
structure SyncRequest where
  lastSyncedAt : Option Nat
  entries : List VaultEntryRequest
deriving DecidableEq

/-- Model of `model.SyncResponse`: server time of the round, outbound records and
the skipped count. -/
structure SyncResponse where
  syncedAt : Nat
  entries : List VaultEntryResponse
  skipped : Nat
deriving DecidableEq

deriving instance DecidableEq for Except

/-- Model of `entriesToResponse` (internal/service/vault.go): re-encode each entry's
payload and expose entry_id, version, updated_at, deleted. -/
def entriesToResponse (es : List VaultEntry) : List VaultEntryResponse :=
  es.map fun e =>
    { entryID := e.entryID, encryptedData := encodeBase64 e.encryptedData,
      version := e.version, updatedAt := e.updatedAt, deleted := e.deleted }

/-- The per-record loop of `Sync` (internal/service/vault.go lines 162-188):
for each incoming record, decode its payload — on failure count it skipped
and continue; otherwise coerce `version` to at least 1 and upsert inside the
round's transaction. Returns the table as mutated inside the transaction and
the skipped count. -/
def applyEntries (uid : Int) (now : Nat) :
    List VaultEntryRequest → Store → Store × Nat
  | [], s => (s, 0)
  | re :: rest, s =>
    match decodeBase64 re.encryptedData with
    | none =>
      let r := applyEntries uid now rest s
      (r.1, r.2 + 1)
    | some data =>
      let ver := if re.version < 1 then 1 else re.version
      applyEntries uid now rest (Upsert now uid re.entryID data ver re.deleted s)

/-- Model of `Sync` (internal/service/vault.go lines 150-214). `commitOk` models the
fate of `tx.Commit()`: when it fails the deferred rollback discards every
write of the round and the error is returned with the store unchanged.
`syncedAt` is captured once at the start of the round; with no incoming
entries no transaction is opened. The outbound delta is computed by
`GetChangedSince` with the request cursor (`time.Time{}`, i.e. 0, when the
cursor is absent) against the post-commit table. -/
def Sync (commitOk : Bool) (now : Nat) (uid : Int) (req : SyncRequest)
    (s : Store) : Except VaultError SyncResponse × Store :=
  if 0 < req.entries.length then
    let r := applyEntries uid now req.entries s
    if commitOk then
      let changed := GetChangedSince uid (req.lastSyncedAt.getD 0) r.1
      (Except.ok { syncedAt := now, entries := entriesToResponse changed,
                   skipped := r.2 }, r.1)
    else
      (Except.error VaultError.commitFailed, s)
  else
    let changed := GetChangedSince uid (req.lastSyncedAt.getD 0) s
    (Except.ok { syncedAt := now, entries := entriesToResponse changed,
                 skipped := 0 }, s)

/-- Model of `CreateEntry` (internal/service/vault.go lines 58-89): require a
non-empty entry_id and non-empty payload, decode the payload, upsert with
version 1 (the request's `version` and `deleted` fields are ignored; the
inserted `deleted` is the Go zero value `false`), and answer with the
submitted entry_id, the re-encoded submitted payload and version 1,
regardless of what the store held. -/
def CreateEntry (now : Nat) (uid : Int) (req : VaultEntryRequest)
    (s : Store) : Except VaultError VaultEntryResponse × Store :=
  if req.entryID = "" then
    (Except.error VaultError.entryIDRequired, s)
  else if req.encryptedData = "" then
    (Except.error VaultError.encryptedDataRequired, s)
  else
    match decodeBase64 req.encryptedData with
    | none => (Except.error VaultError.decodeFailed, s)
    | some data =>
      (Except.ok { entryID := req.entryID,
                   encryptedData := encodeBase64 data,
                   version := 1, updatedAt := now, deleted := false },
       Upsert now uid req.entryID data 1 false s)

/-- One database mutation step, at statement time `t`: every write path of
the service goes through `Upsert` (CreateEntry, UpdateEntry, Sync) or
`SoftDelete` (DeleteEntry); no other statement mutates `vault_entries`. -/
inductive MutStep (t : Nat) : Store → Store → Prop
  | upsert (uid : Int) (eid : String) (data : List Nat) (ver : Int)
      (del : Bool) (s : Store) :
      MutStep t s (Upsert t uid eid data ver del s)
  | softDelete (uid : Int) (eid : String) (s : Store) :
      MutStep t s (SoftDelete t uid eid s).2

/-- States reachable from `s` through mutation steps whose statement times
are all strictly after the cursor value `c` (the server clock is
authoritative and moves forward). -/
inductive ReachableAfter (c : Nat) : Store → Store → Prop
  | refl (s : Store) : ReachableAfter c s s
  | step {s₁ s₂ s₃ : Store} (t : Nat) : ReachableAfter c s₁ s₂ → c < t →
      MutStep t s₂ s₃ → ReachableAfter c s₁ s₃

/-! ### Helper lemmas -/

theorem matchKey_iff {uid : Int} {eid : String} {e : VaultEntry} :
    matchKey uid eid e = true ↔ e.userID = uid ∧ e.entryID = eid := by
  simp [matchKey]

/-- Mapping a function that leaves keys alone commutes with lookup. -/
theorem find?_map_matchKey {uid : Int} {eid : String}
    (f : VaultEntry → VaultEntry)
    (hf : ∀ e, matchKey uid eid (f e) = matchKey uid eid e) :
    ∀ l : Store,
      (l.map f).find? (matchKey uid eid) = (l.find? (matchKey uid eid)).map f
  | [] => rfl
  | a :: t => by
    simp only [List.map_cons, List.find?_cons, hf a]
    cases h : matchKey uid eid a
    · simpa using find?_map_matchKey f hf t
    · rfl

theorem map_id_of_mem {α : Type} {l : List α} {f : α → α}
    (h : ∀ x ∈ l, f x = x) : l.map f = l :=
  (List.map_congr_left h).trans (List.map_id l)

/-- A found element stays found after appending. -/
theorem find?_append_of_some {α : Type} {p : α → Bool} {l₁ l₂ : List α}
    {a : α} (h : l₁.find? p = some a) : (l₁ ++ l₂).find? p = some a := by
  rw [List.find?_append, h]; rfl

/-- Under the unique index, the looked-up row is the only row matching the
key. -/
theorem find?_unique {uid : Int} {eid : String} {s : Store} {r : VaultEntry}
    (hu : KeyUnique s) (hf : s.find? (matchKey uid eid) = some r) :
    ∀ x ∈ s, matchKey uid eid x = true → x = r := by
  induction s with
  | nil => simp at hf
  | cons a t ih =>
    rw [KeyUnique, List.pairwise_cons] at hu
    intro x hx hmx
    rw [List.find?_cons] at hf
    cases ha : matchKey uid eid a with
    | true =>
      rw [ha] at hf
      simp only [Option.some.injEq] at hf
      subst hf
      cases hx with
      | head => rfl
      | tail b hx' =>
        exact absurd ⟨(matchKey_iff.mp ha).1.trans (matchKey_iff.mp hmx).1.symm,
          (matchKey_iff.mp ha).2.trans (matchKey_iff.mp hmx).2.symm⟩ (hu.1 x hx')
    | false =>
      rw [ha] at hf
      cases hx with
      | head => exact absurd hmx (by simp [ha])
      | tail b hx' => exact ih hu.2 hf x hx' hmx

/-- The conditional-update branch of `Upsert` never changes a row's key. -/
theorem upsert_map_keyfix (uid uid' : Int) (eid eid' : String)
    (data : List Nat) (ver : Int) (e : VaultEntry) :
    matchKey uid eid
      (if matchKey uid' eid' e && decide (e.version < ver) then
        { e with encryptedData := data, version := ver }
      else e) = matchKey uid eid e := by
  split <;> simp [matchKey]

/-- The `SoftDelete` update never changes a row's key. -/
theorem softDelete_map_keyfix (now : Nat) (uid uid' : Int)
    (eid eid' : String) (e : VaultEntry) :
    matchKey uid eid
      (if matchKey uid' eid' e then
        { e with deleted := true, version := e.version + 1, updatedAt := now }
      else e) = matchKey uid eid e := by
  split <;> simp [matchKey]

/-- Branch equation for `Upsert` when a row with the key exists. -/
theorem Upsert_pos {uid : Int} {eid : String} {s : Store} (now : Nat)
    (data : List Nat) (ver : Int) (del : Bool)
    (h : s.any (matchKey uid eid) = true) :
    Upsert now uid eid data ver del s =
      s.map fun e =>
        if matchKey uid eid e && decide (e.version < ver) then
          { e with encryptedData := data, version := ver }
        else e := by
  unfold Upsert; rw [if_pos h]

/-- Branch equation for `Upsert` when no row with the key exists. -/
theorem Upsert_neg {uid : Int} {eid : String} {s : Store} (now : Nat)
    (data : List Nat) (ver : Int) (del : Bool)
    (h : s.any (matchKey uid eid) = false) :
    Upsert now uid eid data ver del s =
      s ++ [⟨uid, eid, data, ver, now, now, del⟩] := by
  unfold Upsert; rw [if_neg (by simp [h])]

/-- Lookup after an upsert on a present key: the duplicate-key path
replaces exactly the payload and the version, and only when the incoming
version is strictly greater. -/
theorem getEntry_upsert_found {uid : Int} {eid : String} {s : Store}
    {r : VaultEntry} (now : Nat) (data : List Nat) (ver : Int) (del : Bool)
    (h : getEntry uid eid s = some r) :
    getEntry uid eid (Upsert now uid eid data ver del s) =
      some (if r.version < ver then
        { r with encryptedData := data, version := ver }
      else r) := by
  have hmem := List.mem_of_find?_eq_some h
  have hkey := List.find?_some h
  have hany : s.any (matchKey uid eid) = true :=
    List.any_eq_true.mpr ⟨r, hmem, hkey⟩
  unfold Upsert
  rw [if_pos hany]
  unfold getEntry at h ⊢
  rw [find?_map_matchKey _ (upsert_map_keyfix uid uid eid eid data ver), h]
  by_cases hv : r.version < ver
  · simp [hkey, hv]
  · simp [hkey, hv]

/-- Lookup after an upsert on an absent key: the freshly inserted row. -/
theorem getEntry_upsert_absent {uid : Int} {eid : String} {s : Store}
    (now : Nat) (data : List Nat) (ver : Int) (del : Bool)
    (h : getEntry uid eid s = none) :
    getEntry uid eid (Upsert now uid eid data ver del s) =
      some ⟨uid, eid, data, ver, now, now, del⟩ := by
  have hany : s.any (matchKey uid eid) = false :=
    List.any_eq_false.mpr (List.find?_eq_none.mp h)
  unfold Upsert
  rw [if_neg (by simp [hany])]
  unfold getEntry at h ⊢
  rw [List.find?_append, h]
  simp [matchKey]

/-- A stale upsert (incoming version not strictly greater than the stored
one) leaves the whole table unchanged, provided the unique index holds. -/
theorem upsert_stale {uid : Int} {eid : String} {s : Store} {r : VaultEntry}
    (now : Nat) (data : List Nat) (ver : Int) (del : Bool)
    (hu : KeyUnique s) (h : getEntry uid eid s = some r)
    (hv : ¬ r.version < ver) :
    Upsert now uid eid data ver del s = s := by
  have hmem := List.mem_of_find?_eq_some h
  have hkey := List.find?_some h
  have hany : s.any (matchKey uid eid) = true :=
    List.any_eq_true.mpr ⟨r, hmem, hkey⟩
  unfold Upsert
  rw [if_pos hany]
  apply map_id_of_mem
  intro x hx
  cases hm : matchKey uid eid x with
  | true =>
    have hxr : x = r := find?_unique hu h x hx hm
    subst hxr
    simp [hv]
  | false => simp [hm]

/-! ### Claim theorems -/

/-- C1 is refuted by the code, and the code contradicts its own intent: at
the failing input — a stored row (user 1, entry "e", payload [7],
version 2, deleted = false, updated_at = 1) receiving the write
(payload [8], version 5, deleted = true) at time 9 — the incoming version
is strictly greater, yet only the payload and the version are replaced:
MySQL evaluates the assignment list left to right, so the
`IF(VALUES(version) > version, ...)` guards of `deleted` and `updated_at`
see the already-updated `version` and never fire. The row keeps
deleted = false and updated_at = 1, while the claim (and the guards' own
evident purpose) requires both to be replaced; the stale-write direction
of the claim does hold, the write at a smaller version being a complete
no-op. -/
theorem claim1_code_divergence :
    (2 : Int) < 5 ∧
    getEntry 1 "e" (Upsert 9 1 "e" [8] 5 true [⟨1, "e", [7], 2, 1, 1, false⟩]) =
      some ⟨1, "e", [8], 5, 1, 1, false⟩ ∧
    Upsert 9 1 "e" [8] 1 true [⟨1, "e", [7], 2, 1, 1, false⟩] =
      [⟨1, "e", [7], 2, 1, 1, false⟩] := by
  decide

/-- C8: applying the same write twice through `Upsert` leaves the table in
exactly the state reached by applying it once, whatever the times of the
two statements; the second application is a complete no-op. -/
theorem claim8_upsert_idempotent (t1 t2 : Nat) (uid : Int) (eid : String)
    (data : List Nat) (ver : Int) (del : Bool) (s : Store) :
    Upsert t2 uid eid data ver del (Upsert t1 uid eid data ver del s) =
      Upsert t1 uid eid data ver del s := by
  cases hany : s.any (matchKey uid eid) with
  | true =>
    have hfirst := Upsert_pos (s := s) t1 data ver del hany
    have hany2 : (Upsert t1 uid eid data ver del s).any (matchKey uid eid) = true := by
      rw [hfirst, List.any_map]
      have : (matchKey uid eid ∘ fun e =>
          if matchKey uid eid e && decide (e.version < ver) then
            { e with encryptedData := data, version := ver }
          else e) = matchKey uid eid := by
        funext e
        exact upsert_map_keyfix uid uid eid eid data ver e
      rw [this]; exact hany
    rw [Upsert_pos t2 data ver del hany2]
    apply map_id_of_mem
    intro x hx
    rw [hfirst] at hx
    rcases List.mem_map.mp hx with ⟨y, _, hy⟩
    subst hy
    cases hm : matchKey uid eid y with
    | true =>
      by_cases hv : y.version < ver
      · simp [hm, hv, Int.lt_irrefl]
      · simp [hm, hv]
    | false => simp [hm]
  | false =>
    have hfirst := Upsert_neg (s := s) t1 data ver del hany
    have hnew : matchKey uid eid (⟨uid, eid, data, ver, t1, t1, del⟩ : VaultEntry) = true := by
      simp [matchKey]
    have hany2 : (Upsert t1 uid eid data ver del s).any (matchKey uid eid) = true := by
      rw [hfirst, List.any_append]
      simp [hnew]
    rw [Upsert_pos t2 data ver del hany2]
    apply map_id_of_mem
    intro x hx
    rw [hfirst] at hx
    rcases List.mem_append.mp hx with hx | hx
    · have hnm : matchKey uid eid x = false := List.any_eq_false.mp hany x hx |> Bool.eq_false_iff.mpr
      simp [hnm]
    · have : x = ⟨uid, eid, data, ver, t1, t1, del⟩ := by simpa using hx
      subst this
      simp [hnew, Int.lt_irrefl]

/-- C3: when the round's final commit fails, `Sync` surfaces the failure as
a round-level error and the store is exactly as it was before the round
began; no incoming record takes effect. -/
theorem claim3_commit_failure_rolls_back (now : Nat) (uid : Int)
    (req : SyncRequest) (s : Store) (h : req.entries ≠ []) :
    Sync false now uid req s = (Except.error VaultError.commitFailed, s) := by
  unfold Sync
  rw [if_pos (List.length_pos.mpr h)]
  rfl

/-- Witness for C3: a one-record round whose commit fails returns the
commit error and leaves the concrete store untouched. -/
theorem claim3_witness :
    (⟨none, [⟨"a", "AAAA", 1, false⟩]⟩ : SyncRequest).entries ≠ [] ∧
    Sync false 5 1 ⟨none, [⟨"a", "AAAA", 1, false⟩]⟩ [⟨1, "b", [7], 2, 1, 1, false⟩] =
      (Except.error VaultError.commitFailed, [⟨1, "b", [7], 2, 1, 1, false⟩]) :=
  ⟨by decide,
   claim3_commit_failure_rolls_back 5 1 ⟨none, [⟨"a", "AAAA", 1, false⟩]⟩
     [⟨1, "b", [7], 2, 1, 1, false⟩] (by decide)⟩

/-- C6: `SoftDelete` on a key whose stored row has version N succeeds and
leaves the row with deleted = true and version N + 1; on an absent key it
returns NotFound and the table is unchanged — so NotFound is returned
exactly when no row exists for the key. -/
theorem claim6_softdelete_spec (now : Nat) (uid : Int) (eid : String)
    (s : Store) :
    (∀ r, getEntry uid eid s = some r →
      (SoftDelete now uid eid s).1 = Except.ok () ∧
      getEntry uid eid (SoftDelete now uid eid s).2 =
        some { r with deleted := true, version := r.version + 1,
                      updatedAt := now }) ∧
    (getEntry uid eid s = none →
      SoftDelete now uid eid s = (Except.error VaultError.entryNotFound, s)) := by
  constructor
  · intro r h
    have hmem := List.mem_of_find?_eq_some h
    have hkey := List.find?_some h
    have hany : s.any (matchKey uid eid) = true :=
      List.any_eq_true.mpr ⟨r, hmem, hkey⟩
    unfold SoftDelete
    rw [if_pos hany]
    refine ⟨rfl, ?_⟩
    unfold getEntry at h ⊢
    rw [find?_map_matchKey _ (softDelete_map_keyfix now uid uid eid eid), h]
    simp [hkey]
  · intro h
    have hany : s.any (matchKey uid eid) = false :=
      List.any_eq_false.mpr (List.find?_eq_none.mp h)
    unfold SoftDelete
    rw [if_neg (by simp [hany])]

/-- Witness for C6: soft-deleting a stored version-3 row yields deleted =
true and version 4; soft-deleting an absent key yields NotFound with the
store unchanged. -/
theorem claim6_witness :
    (getEntry 1 "e" [⟨1, "e", [7], 3, 1, 1, false⟩] = some ⟨1, "e", [7], 3, 1, 1, false⟩ ∧
     (SoftDelete 9 1 "e" [⟨1, "e", [7], 3, 1, 1, false⟩]).1 = Except.ok () ∧
     getEntry 1 "e" (SoftDelete 9 1 "e" [⟨1, "e", [7], 3, 1, 1, false⟩]).2 =
       some ⟨1, "e", [7], 4, 1, 9, true⟩) ∧
    (getEntry 1 "x" [⟨1, "e", [7], 3, 1, 1, false⟩] = none ∧
     SoftDelete 9 1 "x" [⟨1, "e", [7], 3, 1, 1, false⟩] =
       (Except.error VaultError.entryNotFound, [⟨1, "e", [7], 3, 1, 1, false⟩])) :=
  ⟨⟨by decide,
    (claim6_softdelete_spec 9 1 "e" [⟨1, "e", [7], 3, 1, 1, false⟩]).1
      ⟨1, "e", [7], 3, 1, 1, false⟩ (by decide)⟩,
   ⟨by decide,
    (claim6_softdelete_spec 9 1 "x" [⟨1, "e", [7], 3, 1, 1, false⟩]).2 (by decide)⟩⟩

/-- C2 as stated is false on the code, in two ways. First, over a store
already holding version 5 for the key, two writes with versions 2 < 3
applied in either order leave the stored version at 5 — not the
payload/version of the version-3 write. Second, the final deleted flag is
not even order-independent when the key starts absent: writes
(version 1, deleted = false) then (version 2, deleted = true) end with
deleted = false — the duplicate-key path never updates `deleted` — while
the reverse order ends with deleted = true, so the first order also
contradicts "the deleted flag of the v2 write". -/
theorem claim2_counterexample :
    (getEntry 1 "e" (Upsert 3 1 "e" [2] 3 false (Upsert 2 1 "e" [1] 2 false
        [⟨1, "e", [9], 5, 1, 1, false⟩]))).map VaultEntry.version = some 5 ∧
    (getEntry 1 "e" (Upsert 3 1 "e" [1] 2 false (Upsert 2 1 "e" [2] 3 false
        [⟨1, "e", [9], 5, 1, 1, false⟩]))).map VaultEntry.version = some 5 ∧
    (getEntry 1 "e" (Upsert 6 1 "e" [2] 2 true
        (Upsert 5 1 "e" [1] 1 false []))).map VaultEntry.deleted = some false ∧
    (getEntry 1 "e" (Upsert 6 1 "e" [1] 1 false
        (Upsert 5 1 "e" [2] 2 true []))).map VaultEntry.deleted = some true := by
  decide

/-- C2 amended: two writes to the same key with versions v1 < v2 applied
through `Upsert` in either order always yield the same stored payload and
version for that key; and whenever the key's stored version (if any) is
below v2, that common result is exactly the payload and version of the v2
write. (The deleted flag is not order-independent when the key starts
absent — it keeps the inserting write's flag, see the counterexample — so
it is not part of the convergence guarantee.) -/
theorem claim2_lww_order_independent (t1 t2 t3 t4 : Nat) (uid : Int)
    (eid : String) (d1 d2 : List Nat) (v1 v2 : Int) (del1 del2 : Bool)
    (s : Store) (hv : v1 < v2) :
    ∃ ra rb,
      getEntry uid eid
        (Upsert t2 uid eid d2 v2 del2 (Upsert t1 uid eid d1 v1 del1 s)) = some ra ∧
      getEntry uid eid
        (Upsert t4 uid eid d1 v1 del1 (Upsert t3 uid eid d2 v2 del2 s)) = some rb ∧
      ra.encryptedData = rb.encryptedData ∧ ra.version = rb.version ∧
      ((∀ r, getEntry uid eid s = some r → r.version < v2) →
        ra.encryptedData = d2 ∧ ra.version = v2) := by
  cases h : getEntry uid eid s with
  | none =>
    have ha1 := getEntry_upsert_absent (s := s) t1 d1 v1 del1 h
    have ha2 := getEntry_upsert_found (r := (⟨uid, eid, d1, v1, t1, t1, del1⟩ : VaultEntry))
      t2 d2 v2 del2 ha1
    have hb1 := getEntry_upsert_absent (s := s) t3 d2 v2 del2 h
    have hb2 := getEntry_upsert_found (r := (⟨uid, eid, d2, v2, t3, t3, del2⟩ : VaultEntry))
      t4 d1 v1 del1 hb1
    simp only [show ((⟨uid, eid, d1, v1, t1, t1, del1⟩ : VaultEntry)).version = v1 from rfl,
      if_pos hv, if_neg (lt_asymm hv)] at ha2 hb2
    exact ⟨_, _, ha2, hb2, rfl, rfl, fun _ => ⟨rfl, rfl⟩⟩
  | some r =>
    have ha1 := getEntry_upsert_found (r := r) t1 d1 v1 del1 h
    have hb1 := getEntry_upsert_found (r := r) t3 d2 v2 del2 h
    by_cases h2 : r.version < v2
    · rw [if_pos h2] at hb1
      have hb2 := getEntry_upsert_found t4 d1 v1 del1 hb1
      rw [if_neg (lt_asymm hv)] at hb2
      by_cases h1 : r.version < v1
      · rw [if_pos h1] at ha1
        have ha2 := getEntry_upsert_found t2 d2 v2 del2 ha1
        rw [if_pos hv] at ha2
        exact ⟨_, _, ha2, hb2, rfl, rfl, fun _ => ⟨rfl, rfl⟩⟩
      · rw [if_neg h1] at ha1
        have ha2 := getEntry_upsert_found (r := r) t2 d2 v2 del2 ha1
        rw [if_pos h2] at ha2
        exact ⟨_, _, ha2, hb2, rfl, rfl, fun _ => ⟨rfl, rfl⟩⟩
    · have h1 : ¬ r.version < v1 := fun hc => h2 (hc.trans hv)
      rw [if_neg h1] at ha1
      rw [if_neg h2] at hb1
      have ha2 := getEntry_upsert_found (r := r) t2 d2 v2 del2 ha1
      rw [if_neg h2] at ha2
      have hb2 := getEntry_upsert_found (r := r) t4 d1 v1 del1 hb1
      rw [if_neg h1] at hb2
      exact ⟨_, _, ha2, hb2, rfl, rfl,
        fun hall => absurd (hall r rfl) h2⟩

/-- Witness for C2 (amended): on the empty store, writes with versions
1 < 2 in either order end with the payload and version of the version-2
write. -/
theorem claim2_witness :
    (1 : Int) < 2 ∧
    ∃ ra rb,
      getEntry 1 "e" (Upsert 6 1 "e" [5] 2 true (Upsert 5 1 "e" [4] 1 false [])) = some ra ∧
      getEntry 1 "e" (Upsert 6 1 "e" [4] 1 false (Upsert 5 1 "e" [5] 2 true [])) = some rb ∧
      ra.encryptedData = rb.encryptedData ∧ ra.version = rb.version ∧
      ((∀ r, getEntry 1 "e" ([] : Store) = some r → r.version < 2) →
        ra.encryptedData = [5] ∧ ra.version = 2) :=
  ⟨by decide, claim2_lww_order_independent 5 6 5 6 1 "e" [4] [5] 1 2 false true [] (by decide)⟩

/-- C4: a record whose payload fails to decode is skipped: the batch
produces exactly the store produced by the batch with that record removed,
and a skipped count one higher — the malformed record is not applied, does
not abort the round, and the remaining records are processed. -/
theorem claim4_sync_skips_undecodable (uid : Int) (now : Nat) (s : Store)
    (pre suf : List VaultEntryRequest) (r : VaultEntryRequest)
    (h : decodeBase64 r.encryptedData = none) :
    applyEntries uid now (pre ++ r :: suf) s =
      ((applyEntries uid now (pre ++ suf) s).1,
       (applyEntries uid now (pre ++ suf) s).2 + 1) := by
  induction pre generalizing s with
  | nil => simp [applyEntries, h]
  | cons p pre ih =>
    simp only [List.cons_append, applyEntries]
    cases hd : decodeBase64 p.encryptedData with
    | none => simp [ih s]
    | some data => simp [ih]

/-- Witness for C4, the spec's Scenario B: of a three-record batch whose
middle record has an undecodable payload, the two valid records are
applied, the response reports skipped = 1, and the stored table equals the
one produced without the malformed record. -/
theorem claim4_witness :
    decodeBase64 "!" = none ∧
    applyEntries 1 5 [⟨"a", "AAAA", 1, false⟩, ⟨"b", "!", 1, false⟩,
        ⟨"c", "AAAA", 2, false⟩] [] =
      ((applyEntries 1 5 [⟨"a", "AAAA", 1, false⟩, ⟨"c", "AAAA", 2, false⟩] []).1,
       (applyEntries 1 5 [⟨"a", "AAAA", 1, false⟩, ⟨"c", "AAAA", 2, false⟩] []).2 + 1) ∧
    Sync true 5 1 ⟨none, [⟨"a", "AAAA", 1, false⟩, ⟨"b", "!", 1, false⟩,
        ⟨"c", "AAAA", 2, false⟩]⟩ [] =
      (Except.ok ⟨5, [⟨"a", "AAAA", 1, 5, false⟩, ⟨"c", "AAAA", 2, 5, false⟩], 1⟩,
       [⟨1, "a", [0, 0, 0], 1, 5, 5, false⟩, ⟨1, "c", [0, 0, 0], 2, 5, 5, false⟩]) :=
  ⟨by decide,
   claim4_sync_skips_undecodable 1 5 [] [⟨"a", "AAAA", 1, false⟩]
     [⟨"c", "AAAA", 2, false⟩] ⟨"b", "!", 1, false⟩ (by decide),
   by decide⟩

/-- C9 as stated is false on the code: `Sync` performs no identifier
validation. A record with an empty entry_id and a decodable payload is
applied — a row keyed by the empty string is written — the skipped count
stays 0, and the record is echoed in the outbound delta. -/
theorem claim9_counterexample :
    (Sync true 5 1 ⟨none, [⟨"", "AAAA", 1, false⟩]⟩ []).2 =
      [⟨1, "", [0, 0, 0], 1, 5, 5, false⟩] ∧
    (Sync true 5 1 ⟨none, [⟨"", "AAAA", 1, false⟩]⟩ []).1 =
      Except.ok ⟨5, [⟨"", "AAAA", 1, 5, false⟩], 0⟩ := by
  decide

/-- C9 amended: a sync record whose entry_id is empty receives no special
treatment: if its payload decodes, it is applied through `Upsert` exactly
like any other record (stored under the empty identifier) and is not
counted as skipped. The round-level part of the original claim does hold:
such a record never causes a round-level error. -/
theorem claim9_amended_no_id_validation (uid : Int) (now : Nat) (s : Store)
    (re : VaultEntryRequest) (rest : List VaultEntryRequest)
    (c : Option Nat) (d : List Nat) (hid : re.entryID = "")
    (hdec : decodeBase64 re.encryptedData = some d) :
    applyEntries uid now (re :: rest) s =
      applyEntries uid now rest
        (Upsert now uid re.entryID d (if re.version < 1 then 1 else re.version)
          re.deleted s) ∧
    ∃ resp, (Sync true now uid ⟨c, re :: rest⟩ s).1 = Except.ok resp := by
  constructor
  · simp [applyEntries, hdec]
  · unfold Sync
    rw [if_pos (by simp)]
    exact ⟨_, rfl⟩

/-- Witness for C9 (amended): an empty-identifier record with payload
`AAAA` is upserted under entry_id `""` and the round succeeds. -/
theorem claim9_witness :
    (⟨"", "AAAA", 1, false⟩ : VaultEntryRequest).entryID = "" ∧
    decodeBase64 (⟨"", "AAAA", 1, false⟩ : VaultEntryRequest).encryptedData =
      some [0, 0, 0] ∧
    (applyEntries 1 5 [⟨"", "AAAA", 1, false⟩] [] =
      applyEntries 1 5 []
        (Upsert 5 1 (⟨"", "AAAA", 1, false⟩ : VaultEntryRequest).entryID [0, 0, 0]
          (if (⟨"", "AAAA", 1, false⟩ : VaultEntryRequest).version < 1 then 1
           else (⟨"", "AAAA", 1, false⟩ : VaultEntryRequest).version)
          (⟨"", "AAAA", 1, false⟩ : VaultEntryRequest).deleted []) ∧
     ∃ resp, (Sync true 5 1 ⟨none, [⟨"", "AAAA", 1, false⟩]⟩ []).1 =
       Except.ok resp) :=
  ⟨by decide, by decide,
   claim9_amended_no_id_validation 1 5 [] ⟨"", "AAAA", 1, false⟩ [] none
     [0, 0, 0] (by decide) (by decide)⟩

/-- C10: calling `CreateEntry` for a key that already holds a row at
version ≥ 1 leaves the table completely unchanged (the version-1 upsert is
never strictly greater than the stored version), yet returns a success
response carrying version 1 and the submitted payload — no conflict and no
error is reported. -/
theorem claim10_create_duplicate_silent (now : Nat) (uid : Int)
    (req : VaultEntryRequest) (s : Store) (r : VaultEntry) (b : List Nat)
    (hu : KeyUnique s) (hid : ¬ req.entryID = "")
    (hdata : ¬ req.encryptedData = "")
    (hdec : decodeBase64 req.encryptedData = some b)
    (hfound : getEntry uid req.entryID s = some r) (hver : 1 ≤ r.version) :
    CreateEntry now uid req s =
      (Except.ok { entryID := req.entryID, encryptedData := encodeBase64 b,
                   version := 1, updatedAt := now, deleted := false }, s) := by
  unfold CreateEntry
  rw [if_neg hid, if_neg hdata]
  simp only [hdec]
  rw [upsert_stale now b 1 false hu hfound (by omega)]

/-- Witness for C10: a duplicate create over a stored version-4 row with a
different payload returns success with version 1 and the re-encoded
submitted payload, while the stored row keeps version 4 and its payload. -/
theorem claim10_witness :
    KeyUnique [⟨1, "e", [9, 9], 4, 1, 1, false⟩] ∧
    decodeBase64 "AAAA" = some [0, 0, 0] ∧
    getEntry 1 "e" [⟨1, "e", [9, 9], 4, 1, 1, false⟩] =
      some ⟨1, "e", [9, 9], 4, 1, 1, false⟩ ∧
    encodeBase64 [0, 0, 0] = "AAAA" ∧
    CreateEntry 5 1 ⟨"e", "AAAA", 7, true⟩ [⟨1, "e", [9, 9], 4, 1, 1, false⟩] =
      (Except.ok ⟨"e", encodeBase64 [0, 0, 0], 1, 5, false⟩,
       [⟨1, "e", [9, 9], 4, 1, 1, false⟩]) :=
  ⟨by decide, by decide, by decide, by decide,
   claim10_create_duplicate_silent 5 1 ⟨"e", "AAAA", 7, true⟩
     [⟨1, "e", [9, 9], 4, 1, 1, false⟩] ⟨1, "e", [9, 9], 4, 1, 1, false⟩
     [0, 0, 0] (by decide) (by decide) (by decide) (by decide) (by decide)
     (by decide)⟩

/-- The change-since query is sorted by updated_at ascending. -/
theorem gcs_pairwise (uid : Int) (since : Nat) (s : Store) :
    (GetChangedSince uid since s).Pairwise updAtLE :=
  List.sorted_insertionSort updAtLE _

/-- The outbound response list inherits the ascending updated_at order. -/
theorem resp_pairwise (uid : Int) (since : Nat) (s : Store) :
    (entriesToResponse (GetChangedSince uid since s)).Pairwise
      fun a b => a.updatedAt ≤ b.updatedAt :=
  (gcs_pairwise uid since s).map _ fun _ _ h => h

/-- With the zero cursor, the change-since query returns exactly the
owner's rows (as a permutation), provided all of the owner's stored
timestamps are positive. -/
theorem gcs_zero_perm (uid : Int) (s : Store)
    (hpos : ∀ e ∈ s, e.userID = uid → 0 < e.updatedAt) :
    (GetChangedSince uid 0 s).Perm (s.filter fun e => e.userID == uid) := by
  unfold GetChangedSince
  refine (List.perm_insertionSort _ _).trans ?_
  rw [List.filter_congr ?_]
  intro e he
  cases hu : e.userID == uid with
  | true => simp [hpos e he (by simpa using hu)]
  | false => simp

/-- C5: a committed sync round always answers with outbound entries ordered
by updated_at ascending; and when the input cursor is null/absent the
outbound entries are exactly the owner's entire table — tombstones
included — modulo order, provided the owner's stored timestamps are
positive (every CURRENT_TIMESTAMP the database assigns is). -/
theorem claim5_full_history_and_order (now : Nat) (uid : Int)
    (req : SyncRequest) (s : Store) :
    (∃ resp, (Sync true now uid req s).1 = Except.ok resp ∧
       resp.entries.Pairwise fun a b => a.updatedAt ≤ b.updatedAt) ∧
    (req.lastSyncedAt = none →
     (∀ e ∈ (Sync true now uid req s).2, e.userID = uid → 0 < e.updatedAt) →
     ∃ resp, (Sync true now uid req s).1 = Except.ok resp ∧
       resp.entries.Perm (entriesToResponse
         ((Sync true now uid req s).2.filter fun e => e.userID == uid))) := by
  have hchar : ∃ S k, Sync true now uid req s =
      (Except.ok ⟨now, entriesToResponse
        (GetChangedSince uid (req.lastSyncedAt.getD 0) S), k⟩, S) := by
    unfold Sync
    by_cases hlen : 0 < req.entries.length
    · rw [if_pos hlen]; exact ⟨_, _, rfl⟩
    · rw [if_neg hlen]; exact ⟨_, _, rfl⟩
  rcases hchar with ⟨S, k, hS⟩
  have h1 : (Sync true now uid req s).1 =
      Except.ok ⟨now, entriesToResponse
        (GetChangedSince uid (req.lastSyncedAt.getD 0) S), k⟩ := by rw [hS]
  have h2 : (Sync true now uid req s).2 = S := by rw [hS]
  constructor
  · exact ⟨_, h1, resp_pairwise uid _ S⟩
  · intro hnone hpos
    rw [h2] at hpos
    refine ⟨_, h1, ?_⟩
    show (entriesToResponse
      (GetChangedSince uid (req.lastSyncedAt.getD 0) S)).Perm _
    rw [h2, hnone, Option.getD_none]
    exact (gcs_zero_perm uid S hpos).map _

/-- Witness for C5: a cursor-less round over a store whose two rows are out
of updated_at order answers with the rows sorted ascending and, as a
permutation, with the owner's full table including the tombstoned row. -/
theorem claim5_witness :
    (∃ resp, (Sync true 9 1 ⟨none, []⟩
        [⟨1, "a", [1], 1, 3, 3, true⟩, ⟨1, "b", [2], 1, 2, 2, false⟩]).1 =
          Except.ok resp ∧
       resp.entries.Pairwise fun a b => a.updatedAt ≤ b.updatedAt) ∧
    ((⟨none, []⟩ : SyncRequest).lastSyncedAt = none ∧
     (∀ e ∈ (Sync true 9 1 ⟨none, []⟩
        [⟨1, "a", [1], 1, 3, 3, true⟩, ⟨1, "b", [2], 1, 2, 2, false⟩]).2,
        e.userID = 1 → 0 < e.updatedAt) ∧
     ∃ resp, (Sync true 9 1 ⟨none, []⟩
        [⟨1, "a", [1], 1, 3, 3, true⟩, ⟨1, "b", [2], 1, 2, 2, false⟩]).1 =
          Except.ok resp ∧
       resp.entries.Perm (entriesToResponse
         ((Sync true 9 1 ⟨none, []⟩
            [⟨1, "a", [1], 1, 3, 3, true⟩, ⟨1, "b", [2], 1, 2, 2, false⟩]).2.filter
           fun e => e.userID == 1))) :=
  ⟨(claim5_full_history_and_order 9 1 ⟨none, []⟩
      [⟨1, "a", [1], 1, 3, 3, true⟩, ⟨1, "b", [2], 1, 2, 2, false⟩]).1,
   by decide,
   by decide,
   (claim5_full_history_and_order 9 1 ⟨none, []⟩
      [⟨1, "a", [1], 1, 3, 3, true⟩, ⟨1, "b", [2], 1, 2, 2, false⟩]).2
     rfl (by decide)⟩

/-- A key-preserving row update that either leaves a row's deleted flag
and updated_at alone or marks it deleted at a time later than the cursor
keeps the tombstone invariant: the key is stored, flagged deleted, with
updated_at after the cursor. -/
theorem inv_preserved_map {uid : Int} {eid : String} {c : Nat}
    (f : VaultEntry → VaultEntry) (t : Nat)
    (hf : ∀ e, matchKey uid eid (f e) = matchKey uid eid e)
    (hupd : ∀ e, ((f e).deleted = e.deleted ∧ (f e).updatedAt = e.updatedAt) ∨
      ((f e).deleted = true ∧ (f e).updatedAt = t)) (hc : c < t) {s : Store}
    (h : ∃ r, getEntry uid eid s = some r ∧ r.deleted = true ∧ c < r.updatedAt) :
    ∃ r, getEntry uid eid (s.map f) = some r ∧ r.deleted = true ∧
      c < r.updatedAt := by
  rcases h with ⟨r, hr, hrd, hru⟩
  refine ⟨f r, ?_, ?_, ?_⟩
  · unfold getEntry at hr ⊢
    rw [find?_map_matchKey f hf, hr]
    rfl
  · rcases hupd r with ⟨hd, _⟩ | ⟨hd, _⟩
    · rw [hd]; exact hrd
    · exact hd
  · rcases hupd r with ⟨_, hu⟩ | ⟨_, hu⟩
    · rw [hu]; exact hru
    · rw [hu]; exact hc

/-- Any single mutation step after the cursor preserves the tombstone
invariant: the duplicate-key path of `Upsert` never touches deleted or
updated_at, the insert path cannot fire for a key that is present, and
`SoftDelete` only re-marks the row deleted at a later time. -/
theorem inv_step {uid : Int} {eid : String} {c t : Nat} (hc : c < t)
    {s s' : Store} (hstep : MutStep t s s')
    (h : ∃ r, getEntry uid eid s = some r ∧ r.deleted = true ∧ c < r.updatedAt) :
    ∃ r, getEntry uid eid s' = some r ∧ r.deleted = true ∧ c < r.updatedAt := by
  cases hstep with
  | upsert uid' eid' data ver del s =>
    cases hany : s.any (matchKey uid' eid') with
    | true =>
      rw [Upsert_pos t data ver del hany]
      refine inv_preserved_map _ t
        (fun e => upsert_map_keyfix uid uid' eid eid' data ver e)
        (fun e => ?_) hc h
      left
      by_cases hcnd : (matchKey uid' eid' e && decide (e.version < ver)) = true
      · rw [if_pos hcnd]; exact ⟨rfl, rfl⟩
      · rw [if_neg hcnd]; exact ⟨rfl, rfl⟩
    | false =>
      rw [Upsert_neg t data ver del hany]
      rcases h with ⟨r, hr, hrd, hru⟩
      exact ⟨r, find?_append_of_some hr, hrd, hru⟩
  | softDelete uid' eid' s =>
    cases hany : s.any (matchKey uid' eid') with
    | true =>
      have hsnd : (SoftDelete t uid' eid' s).2 = s.map fun e =>
          if matchKey uid' eid' e then
            { e with deleted := true, version := e.version + 1, updatedAt := t }
          else e := by
        unfold SoftDelete; rw [if_pos hany]
      rw [hsnd]
      refine inv_preserved_map _ t
        (fun e => softDelete_map_keyfix t uid uid' eid eid' e)
        (fun e => ?_) hc h
      by_cases hcnd : matchKey uid' eid' e = true
      · right; rw [if_pos hcnd]; exact ⟨rfl, rfl⟩
      · left; rw [if_neg hcnd]; exact ⟨rfl, rfl⟩
    | false =>
      have hsnd : (SoftDelete t uid' eid' s).2 = s := by
        unfold SoftDelete; rw [if_neg (by simp [hany])]
      rw [hsnd]; exact h

/-- The tombstone invariant survives any chain of steps after the cursor. -/
theorem inv_reach {uid : Int} {eid : String} {c : Nat} {s1 s2 : Store}
    (hreach : ReachableAfter c s1 s2)
    (h : ∃ r, getEntry uid eid s1 = some r ∧ r.deleted = true ∧ c < r.updatedAt) :
    ∃ r, getEntry uid eid s2 = some r ∧ r.deleted = true ∧ c < r.updatedAt := by
  induction hreach with
  | refl => exact h
  | step t _ hct hstep ih => exact inv_step hct hstep ih

/-- A successful `SoftDelete` leaves the key stored as a tombstone carrying
the statement's timestamp. -/
theorem softDelete_ok_found {now : Nat} {uid : Int} {eid : String}
    {s s1 : Store} (h : SoftDelete now uid eid s = (Except.ok (), s1)) :
    ∃ r, getEntry uid eid s1 = some r ∧ r.deleted = true ∧
      r.updatedAt = now := by
  unfold SoftDelete at h
  by_cases hany : s.any (matchKey uid eid) = true
  · rw [if_pos hany] at h
    have hs1 : s1 = s.map fun e =>
        if matchKey uid eid e then
          { e with deleted := true, version := e.version + 1, updatedAt := now }
        else e := (congrArg Prod.snd h).symm
    obtain ⟨r0, hr0⟩ := Option.isSome_iff_exists.mp
      (List.find?_isSome.mpr (List.any_eq_true.mp hany))
    have hkey := List.find?_some hr0
    have hg : getEntry uid eid s1 = some (if matchKey uid eid r0 then
        { r0 with deleted := true, version := r0.version + 1, updatedAt := now }
      else r0) := by
      unfold getEntry
      rw [hs1, find?_map_matchKey _ (softDelete_map_keyfix now uid uid eid eid), hr0]
      rfl
    rw [if_pos hkey] at hg
    exact ⟨_, hg, rfl, rfl⟩
  · rw [if_neg hany] at h
    exact absurd (congrArg Prod.fst h) (by simp)

/-- A stored row whose updated_at is after the cursor is in the
change-since result for that cursor. -/
theorem mem_gcs_of_getEntry {uid : Int} {eid : String} {c : Nat} {s : Store}
    {r : VaultEntry} (h : getEntry uid eid s = some r)
    (hru : c < r.updatedAt) : r ∈ GetChangedSince uid c s := by
  unfold GetChangedSince
  refine (List.perm_insertionSort _ _).mem_iff.mpr ?_
  refine List.mem_filter.mpr ⟨List.mem_of_find?_eq_some h, ?_⟩
  have hkey := (matchKey_iff.mp (List.find?_some h)).1
  simp [hkey, hru]

/-- C7: once an entry is soft-deleted, every store state reachable through
later operations (each executed after a cursor c taken before the
deletion) still contains the key's row as a tombstone — no operation
removes rows, and no operation can clear the deleted flag, since the
duplicate-key path of `Upsert` never assigns `deleted` — and the row
appears in `GetChangedSince` for the cursor c, its updated_at staying
above c. -/
theorem claim7_tombstone_durability (c td : Nat) (uid : Int) (eid : String)
    (s s1 s2 : Store) (hc : c < td)
    (hdel : SoftDelete td uid eid s = (Except.ok (), s1))
    (hreach : ReachableAfter c s1 s2) :
    ∃ r, getEntry uid eid s2 = some r ∧ r.deleted = true ∧
      c < r.updatedAt ∧ r ∈ GetChangedSince uid c s2 := by
  obtain ⟨r1, hr1, hrd1, hru1⟩ := softDelete_ok_found hdel
  obtain ⟨r, hr, hrd, hru⟩ := inv_reach hreach ⟨r1, hr1, hrd1, hru1 ▸ hc⟩
  exact ⟨r, hr, hrd, hru, mem_gcs_of_getEntry hr hru⟩

/-- Witness for C7: after soft-deleting the single stored entry at time 2,
the state reached by a later accepted write (higher version 3 with
deleted = false, at time 3 — an attempted resurrection) still holds the
row as a tombstone, and the change-since result for the pre-deletion
cursor 1 contains it. -/
theorem claim7_witness :
    (1 : Nat) < 2 ∧
    SoftDelete 2 1 "e" [⟨1, "e", [7], 1, 1, 1, false⟩] =
      (Except.ok (), [⟨1, "e", [7], 2, 1, 2, true⟩]) ∧
    ∃ r, getEntry 1 "e" (Upsert 3 1 "e" [9] 3 false
        [⟨1, "e", [7], 2, 1, 2, true⟩]) = some r ∧ r.deleted = true ∧
      1 < r.updatedAt ∧
      r ∈ GetChangedSince 1 1 (Upsert 3 1 "e" [9] 3 false
        [⟨1, "e", [7], 2, 1, 2, true⟩]) :=
  ⟨by decide, by decide,
   claim7_tombstone_durability 1 2 1 "e" [⟨1, "e", [7], 1, 1, 1, false⟩]
     [⟨1, "e", [7], 2, 1, 2, true⟩]
     (Upsert 3 1 "e" [9] 3 false [⟨1, "e", [7], 2, 1, 2, true⟩])
     (by decide) (by decide)
     (ReachableAfter.step 3 (ReachableAfter.refl _) (by decide)
       (MutStep.upsert 1 "e" [9] 3 false _))⟩

end VaultPass
